import Mathlib

/-!
Verification development for the W-2 data extractor (`src/api/fastOne.py`).

The pipeline is embedded shallowly:
* text is modelled as `List Char` (ASCII view of Python `str`; the regular
  expression character classes `\s`, `\w`, `\d` are modelled over ASCII);
* the Python functions `clean_extracted_text`, `post_process_extracted_data`,
  `extract_text_from_svg_fields`, `trim_whitespace` and the endpoint body
  `extract_w2_data` are translated into Lean functions of the same name;
* PIL images are modelled as a pixel grid (`PixImg`) for `trim_whitespace`;
  for the orchestrator the image type, the PIL resize/crop calls and the OCR
  network call are external collaborators and appear as parameters.
-/

/-! ### Character classes (ASCII model of Python `str`/`re` classes) -/

/-- Python whitespace class `\s` (and `str.strip` default), ASCII part:
space, tab, newline, carriage return, vertical tab, form feed, and the
separator control characters `U+001C`–`U+001F`. -/
def isPySpace (c : Char) : Bool :=
  c = ' ' || c = '\t' || c = '\n' || c = '\r' || c = Char.ofNat 11 || c = Char.ofNat 12 ||
    (Char.ofNat 28 ≤ c && c ≤ Char.ofNat 31)

/-- Regex class `\d`, ASCII part. -/
def isDigitCh (c : Char) : Bool :=
  '0' ≤ c && c ≤ '9'

/-- Regex class `\w` (word character), ASCII part: alphanumeric or underscore. -/
def isWordCh (c : Char) : Bool :=
  c.isAlphanum || c = '_'

/-- The character set kept by the final `re.sub(r'[^\w\s\.\,\$\-]', '', …)`
noise-removal step: word characters, whitespace, period, comma, dollar, hyphen. -/
def allowedCh (c : Char) : Bool :=
  isWordCh c || isPySpace c || c = '.' || c = ',' || c = '$' || c = '-'

/-- ASCII lower-casing, modelling `re.IGNORECASE` comparison. -/
def lowerCh (c : Char) : Char :=
  if 'A' ≤ c && c ≤ 'Z' then Char.ofNat (c.toNat + 32) else c

/-! ### Python string primitives used by `clean_extracted_text` -/

/-- `str.strip()`: drop leading and trailing whitespace. -/
def pyStrip (s : List Char) : List Char :=
  ((s.dropWhile isPySpace).reverse.dropWhile isPySpace).reverse

/-- Worker for `str.replace(pat, '')` with non-empty pattern `p :: ps`:
remove all non-overlapping occurrences, scanning left to right.  The `Nat`
argument is fuel bounding the number of scan steps (any fuel at least the
length of the string gives the scan's result); it makes the recursion
structural so that the definition evaluates by kernel reduction. -/
def removeAllOccF (p : Char) (ps : List Char) : Nat → List Char → List Char
  | _, [] => []
  | 0, s => s
  | n + 1, c :: cs =>
    if (p :: ps).isPrefixOf (c :: cs) then removeAllOccF p ps n (cs.drop ps.length)
    else c :: removeAllOccF p ps n cs

/-- `str.replace(pat, '')` (Python replaces nothing when `pat` is empty and
the replacement is empty). -/
def pyReplace (s pat : List Char) : List Char :=
  match pat with
  | [] => s
  | p :: ps => removeAllOccF p ps s.length s

/-- Worker for `re.sub(re.escape(field), '', s, flags=re.IGNORECASE)` with a
non-empty field name: remove all non-overlapping case-insensitive
occurrences.  Fuel as in `removeAllOccF`. -/
def ciRemoveF (p : Char) (ps : List Char) : Nat → List Char → List Char
  | _, [] => []
  | 0, s => s
  | n + 1, c :: cs =>
    if ((p :: ps).map lowerCh).isPrefixOf ((c :: cs).map lowerCh) then
      ciRemoveF p ps n (cs.drop ps.length)
    else c :: ciRemoveF p ps n cs

/-- `re.sub(re.escape(field), '', s, flags=re.IGNORECASE)`: for an empty field
name the substitution replaces empty matches by the empty string, a no-op. -/
def reSubCI (field s : List Char) : List Char :=
  match field with
  | [] => s
  | p :: ps => ciRemoveF p ps s.length s

/-- Substring test, Python's `pat in s`. -/
def hasSubstr (pat : List Char) : List Char → Bool
  | [] => pat.isEmpty
  | c :: cs => pat.isPrefixOf (c :: cs) || hasSubstr pat cs

/-! ### The money regex `\$\d{1,3}(?:,\d{3})*(?:\.\d{2})?`

The pattern has no backtracking: each quantifier is greedy and everything
after it can match the empty string, so the Python match is computed by the
straight-line greedy functions below. -/

/-- Greedy `\d{0,n}`: take up to `n` leading digits. -/
def takeDigits : Nat → List Char → List Char × List Char
  | 0, r => ([], r)
  | _ + 1, [] => ([], [])
  | n + 1, c :: r =>
    if isDigitCh c then
      let p := takeDigits n r
      (c :: p.1, p.2)
    else ([], c :: r)

/-- Greedy `(?:,\d{3})*`: consume as many comma-plus-three-digit groups as
possible, returning the consumed characters and the remainder. -/
def grabGroups : List Char → List Char × List Char
  | c :: a :: b :: d :: r =>
    if c = ',' && isDigitCh a && isDigitCh b && isDigitCh d then
      let p := grabGroups r
      (c :: a :: b :: d :: p.1, p.2)
    else ([], c :: a :: b :: d :: r)
  | r => ([], r)

/-- Greedy `(?:\.\d{2})?`: consume a period followed by exactly two digits if
present. -/
def grabDec : List Char → List Char × List Char
  | c :: a :: b :: r =>
    if c = '.' && isDigitCh a && isDigitCh b then ([c, a, b], r)
    else ([], c :: a :: b :: r)
  | r => ([], r)

/-- Match of the money pattern anchored at the start of `s`:
a literal dollar sign, one to three digits, groups, optional decimal part. -/
def moneyMatchAt (s : List Char) : Option (List Char) :=
  match s with
  | [] => none
  | c :: r =>
    if c = '$' then
      let ds := takeDigits 3 r
      if ds.1.isEmpty then none
      else
        let gs := grabGroups ds.2
        let dec := grabDec gs.2
        some ('$' :: (ds.1 ++ gs.1 ++ dec.1))
    else none

/-- `re.search` of the money pattern: first (leftmost) match in `s`. -/
def moneySearch : List Char → Option (List Char)
  | [] => none
  | c :: cs =>
    match moneyMatchAt (c :: cs) with
    | some m => some m
    | none => moneySearch cs

/-! ### Remaining cleaning steps -/

/-- Worker for `re.sub(r'\s+', ' ', s)`: the flag records whether the
previous character was whitespace (in which case the current whitespace
character belongs to an already-emitted run). -/
def collapseGo : Bool → List Char → List Char
  | _, [] => []
  | prevWs, c :: cs =>
    if isPySpace c then
      if prevWs then collapseGo true cs else ' ' :: collapseGo true cs
    else c :: collapseGo false cs

/-- `re.sub(r'\s+', ' ', s)`: collapse each maximal whitespace run to a
single space. -/
def collapseWs (s : List Char) : List Char :=
  collapseGo false s

/-- `re.sub(r'[^\w\s\.\,\$\-]', '', s)`: keep only the allowed characters. -/
def removeNoise (s : List Char) : List Char :=
  s.filter allowedCh

/-- The hard-coded `money_fields` label fragments of `clean_extracted_text`. -/
def money_fields : List (List Char) :=
  ["Wages, tips, other compensation".data, "Federal income tax withheld".data,
   "Social security wages".data, "Social security tax withheld".data,
   "Medical wages and tips".data, "Medicare tax withheld".data]

/-- `any(money_field in field_name for money_field in money_fields)`. -/
def isMoneyField (field : List Char) : Bool :=
  money_fields.any fun mf => hasSubstr mf field

/-- Core of `clean_extracted_text` on character lists, step for step:
strip, remove the two boilerplate phrases, remove case-insensitive echoes of
the field name, for monetary fields replace the text by the first money-regex
match when one exists, collapse whitespace, remove noise characters, strip. -/
def cleanCore (field text : List Char) : List Char :=
  let t1 := pyStrip text
  let t2 := pyReplace t1 "For Official Use Only".data
  let t3 := pyReplace t2 "VOID".data
  let t4 := reSubCI field t3
  let t5 :=
    if isMoneyField field then
      match moneySearch t4 with
      | some m => m
      | none => t4
    else t4
  let t6 := collapseWs t5
  let t7 := removeNoise t6
  pyStrip t7

/-- `clean_extracted_text(field_name, extracted_text)` from `fastOne.py`. -/
def clean_extracted_text (field_name extracted_text : String) : String :=
  ⟨cleanCore field_name.data extracted_text.data⟩

/-! ### The Field Coordinate Table and template geometry -/

def TEMPLATE_WIDTH : Nat := 1100

def TEMPLATE_HEIGHT : Nat := 701

/-- `svg_mapped_fields` from `fastOne.py`: the static field coordinate table,
entries `(field_name, x, y, width, height)` in source (dict insertion)
order.  Coordinates are the source's float literals, read as rationals. -/
def svg_mapped_fields : List (String × ℚ × ℚ × ℚ × ℚ) :=
  [("Employee SSN", 0.5, 0.5, 235, 49),
   ("a Employee's social security number", 235.5, 1.5, 261, 48),
   ("OMB No .", 497.5, 2.5, 597, 48),
   ("b Employer identification number EIN", 0.5, 49.5, 598, 50),
   ("1 Wages, tips, other compensation", 598.5, 49.5, 249, 49),
   ("2 Federal income tax withheld", 848.5, 49.5, 246, 49),
   ("3 Social security wages", 598.5, 99.5, 249, 49),
   ("4 Social security tax withheld", 848.5, 99.5, 246, 49),
   ("5 Medical wages and tips", 598.5, 149.5, 249, 49),
   ("6 Medicare tax withheld", 848.5, 149.5, 246, 49),
   ("7 Social security tips", 598.5, 197.5, 249, 49),
   ("8 Allocated tips", 848.5, 197.5, 246, 49),
   ("10 Dependent care benefits", 848.5, 247.5, 246, 49),
   ("12a See instructions for box 12", 848.5, 296.5, 246, 47),
   ("12b", 848.5, 343.5, 246, 49),
   ("11 Nonqualified plans", 599.5, 294.5, 249, 49),
   ("12c", 848.5, 392.5, 246, 49),
   ("12d", 848.5, 441.5, 246, 49),
   ("c Employer's name, address, and ZIP code", 0.5, 99.5, 598, 147),
   ("d Control number", 0.5, 246.5, 599, 48),
   ("e Employee's first name and initial, last name", 0.5, 294.5, 600, 220),
   ("Employer's id number", 0.5, 514.5, 322, 46),
   ("16 State wages, tips", 322.5, 514.5, 174, 48),
   ("17 State income tax", 496.5, 514.5, 161, 48),
   ("18 Local wages, tips", 656.5, 514.5, 176, 48),
   ("19 Local income tax", 833.5, 514.5, 159, 48)]

/-! ### OCR client response handling -/

/-- Outcome of the `requests.post` call to the OCR provider, as seen by
`ocr_space_request`: either the transport layer raised
(`requests.exceptions.RequestException`), or a JSON response arrived, whose
`ParsedResults` key is absent/null (`none`) or holds the list of the entries'
`ParsedText` strings. -/
inductive OcrOutcome where
  | transportFailure (msg : String)
  | response (parsedResults : Option (List String))
deriving DecidableEq

/-- The response handling of `ocr_space_request`: a transport failure is
re-raised as an HTTP 500 error; otherwise the text of the first entry of
`ParsedResults` is returned, the empty string when the list is absent, null
or empty. -/
def ocr_space_request : OcrOutcome → Except String String
  | .transportFailure e => .error ("OCR API error: " ++ e)
  | .response none => .ok ""
  | .response (some []) => .ok ""
  | .response (some (t :: _)) => .ok t

/-! ### Orchestrator

The orchestrator works on PIL images and network responses; in the model the
image type `α` and the PIL/network calls (`resize_fn` for
`Image.resize(..., BILINEAR)` inside `resize_image`, `crop` for
`Image.crop`, `ocr` for `ocr_space_request` composed with the network call,
`trim_fn` for `trim_whitespace` — modelled concretely on pixel grids below)
are parameters.  Exceptions are modelled by `Except String`. -/

/-- Python dict assignment `d[k] = v`: overwrite in place if the key is
present (keeping its position), otherwise append. -/
def dictInsert (d : List (String × String)) (k v : String) : List (String × String) :=
  if d.any (fun e => e.1 = k) then d.map (fun e => if e.1 = k then (k, v) else e)
  else d ++ [(k, v)]

/-- One iteration of the loop of `extract_text_from_svg_fields`: crop the
field's rectangle `(x, y, x + width, y + height)`, OCR the crop, clean the
text with the field's name, and store it in the dict. -/
def svgFieldStep {α : Type} (crop : α → ℚ × ℚ × ℚ × ℚ → α)
    (ocr : α → Except String String) (image : α)
    (extracted_data : List (String × String)) (f : String × ℚ × ℚ × ℚ × ℚ) :
    Except String (List (String × String)) :=
  match f with
  | (field_name, x, y, width, height) => do
    let cropped_img := crop image (x, y, x + width, y + height)
    let extracted_text ← ocr cropped_img
    let cleaned_text := clean_extracted_text field_name extracted_text
    pure (dictInsert extracted_data field_name cleaned_text)

/-- `extract_text_from_svg_fields(image)`: run `svgFieldStep` over the table
entries in order, starting from the empty dict. -/
def extract_text_from_svg_fields {α : Type} (crop : α → ℚ × ℚ × ℚ × ℚ → α)
    (ocr : α → Except String String) (image : α) :
    Except String (List (String × String)) :=
  svg_mapped_fields.foldlM (svgFieldStep crop ocr image) []

/-- One iteration of the loop of `post_process_extracted_data`. -/
def postProcessStep (processed_data : List (String × String))
    (fv : String × String) : List (String × String) :=
  dictInsert processed_data fv.1 (clean_extracted_text fv.1 fv.2)

/-- `post_process_extracted_data(data)`: rebuild the dict, cleaning every
value (again) with its field name. -/
def post_process_extracted_data (data : List (String × String)) :
    List (String × String) :=
  data.foldl postProcessStep []

/-- The crop rectangle the source passes to `Image.crop` for a table entry
`(name, x, y, width, height)`: the slice from `(x, y)` to
`(x + width, y + height)`. -/
def fieldBox (f : String × ℚ × ℚ × ℚ × ℚ) : ℚ × ℚ × ℚ × ℚ :=
  (f.2.1, f.2.2.1, f.2.1 + f.2.2.2.1, f.2.2.1 + f.2.2.2.2)

/-- Value of a successful OCR call, with a default for the error case. -/
def exceptGetD (e : Except String String) (d : String) : String :=
  match e with
  | .ok t => t
  | .error _ => d

/-- Body of the `/extract` endpoint `extract_w2_data`: decode the upload,
trim, resize to the template geometry, extract and clean all fields, and
post-process; any exception is converted into the single error response
`"Error processing the image: …"`. -/
def extract_w2_data {α : Type} (trim_fn : α → α) (resize_fn : α → Nat → Nat → α)
    (crop : α → ℚ × ℚ × ℚ × ℚ → α) (ocr : α → Except String String)
    (decoded : Except String α) : Except String (List (String × String)) :=
  let result : Except String (List (String × String)) := do
    let image ← decoded
    let trimmed_image := trim_fn image
    let resized_image := resize_fn trimmed_image TEMPLATE_WIDTH TEMPLATE_HEIGHT
    let extracted_data ← extract_text_from_svg_fields crop ocr resized_image
    pure (post_process_extracted_data extracted_data)
  match result with
  | .ok d => .ok d
  | .error e => .error ("Error processing the image: " ++ e)

/-! ### Pixel-level image model and `trim_whitespace`

`trim_whitespace` is built from four PIL primitives (`ImageChops.difference`,
`ImageChops.add` with `scale=2.0, offset=-100`, `Image.getbbox`,
`Image.crop` with the integer bounding box); these are modelled concretely on
a pixel grid of 8-bit RGB values. -/

/-- An in-memory RGB raster: width, height, and the pixel value at each
coordinate (channel values are bytes, `0–255`, for faithful inputs). -/
structure PixImg where
  width : Nat
  height : Nat
  pix : Nat → Nat → Nat × Nat × Nat

/-- Absolute difference of two channel values. -/
def absDiff (a b : Nat) : Nat := max a b - min a b

/-- Per-channel absolute difference of two pixels (`ImageChops.difference`). -/
def chDiff (p q : Nat × Nat × Nat) : Nat × Nat × Nat :=
  (absDiff p.1 q.1, absDiff p.2.1 q.2.1, absDiff p.2.2 q.2.2)

/-- One channel of `ImageChops.add(d, d, 2.0, -100)`:
`clip((u + v) / 2 - 100)` (clipped to the byte range; natural subtraction
clips at zero). -/
def boostCh (u v : Nat) : Nat := min ((u + v) / 2 - 100) 255

/-- `ImageChops.difference(image, bg)` on same-sized images. -/
def imageChopsDifference (a b : PixImg) : PixImg :=
  ⟨a.width, a.height, fun x y => chDiff (a.pix x y) (b.pix x y)⟩

/-- `ImageChops.add(a, b, 2.0, -100)` on same-sized images. -/
def imageChopsAddBoost (a b : PixImg) : PixImg :=
  ⟨a.width, a.height, fun x y =>
    (boostCh (a.pix x y).1 (b.pix x y).1,
     boostCh (a.pix x y).2.1 (b.pix x y).2.1,
     boostCh (a.pix x y).2.2 (b.pix x y).2.2)⟩

/-- The in-range coordinates whose pixel is non-zero in some channel
(scanned row-major), the data underlying `Image.getbbox`. -/
def nonzeroPoints (img : PixImg) : List (Nat × Nat) :=
  (List.range (img.width * img.height)).filterMap fun i =>
    let x := i % img.width
    let y := i / img.width
    if img.pix x y = (0, 0, 0) then none else some (x, y)

/-- `Image.getbbox()`: the bounding box `(left, upper, right, lower)` of the
non-zero regions (right and lower exclusive), or `none` when the image is
all zero. -/
def PixImg.getbbox (img : PixImg) : Option (Nat × Nat × Nat × Nat) :=
  match nonzeroPoints img with
  | [] => none
  | p :: ps =>
    let xs := (p :: ps).map Prod.fst
    let ys := (p :: ps).map Prod.snd
    some (xs.foldl min p.1, ys.foldl min p.2,
          xs.foldl max p.1 + 1, ys.foldl max p.2 + 1)

/-- `Image.crop(box)` with an in-bounds integer box. -/
def cropToBox (img : PixImg) (box : Nat × Nat × Nat × Nat) : PixImg :=
  ⟨box.2.2.1 - box.1, box.2.2.2 - box.2.1,
   fun x y => img.pix (x + box.1) (y + box.2.1)⟩

/-- `trim_whitespace(image)` from `fastOne.py`: difference against the
constant image of the top-left pixel, contrast-boost it, and crop to the
bounding box of the non-zero part when that box is non-empty. -/
def trim_whitespace (image : PixImg) : PixImg :=
  let bg : PixImg := ⟨image.width, image.height, fun _ _ => image.pix 0 0⟩
  let diff := imageChopsDifference image bg
  let diff2 := imageChopsAddBoost diff diff
  match diff2.getbbox with
  | some bbox => cropToBox image bbox
  | none => image

/-! ### Shape predicates used by the fixed-point (idempotence) analysis -/

/-- The shape of a string whose leading/trailing characters are not
whitespace (so `str.strip()` is the identity on it). -/
def noEdgeWs (s : List Char) : Bool :=
  (match s.head? with | some c => !isPySpace c | none => true) &&
  (match s.getLast? with | some c => !isPySpace c | none => true)

/-- The shape of a string whose whitespace is already collapsed: every
whitespace character is a plain space not followed by further whitespace. -/
def wsNormalized : List Char → Bool
  | [] => true
  | c :: cs =>
    (if isPySpace c then
      (c = ' ' && (match cs with | [] => true | d :: _ => !isPySpace d))
     else true) && wsNormalized cs

/-! ### Declarative reading of the money pattern

The money pattern with the **mandatory** dollar sign the source regex
requires, and the leftmost-greedy (for this pattern: leftmost-longest)
semantics of `re.search`'s first match. -/

/-- Concatenations of `,ddd` groups: the language of `(?:,\d{3})*`. -/
inductive IsGroups : List Char → Prop
  | nil : IsGroups []
  | cons (a b c : Char) (J : List Char) : isDigitCh a = true → isDigitCh b = true →
      isDigitCh c = true → IsGroups J → IsGroups (',' :: a :: b :: c :: J)

/-- `m` matches the money pattern in full: a dollar sign, one to three
digits, zero or more comma groups, an optional two-decimal part. -/
def MoneyTok (m : List Char) : Prop :=
  ∃ ds J dec, m = '$' :: (ds ++ J ++ dec) ∧ ds ≠ [] ∧ ds.length ≤ 3 ∧
    (∀ c ∈ ds, isDigitCh c = true) ∧ IsGroups J ∧
    (dec = [] ∨ ∃ a b, dec = ['.', a, b] ∧ isDigitCh a = true ∧ isDigitCh b = true)

/-- `m` is the first match of the money pattern in `t`: it occurs in `t`,
no match occurs further left, and no longer match starts at the same
position (regex greediness; for this pattern greedy = longest). -/
def FirstMoneyMatch (t m : List Char) : Prop :=
  ∃ u v, t = u ++ m ++ v ∧ MoneyTok m ∧
    (∀ u' m' v', t = u' ++ m' ++ v' → MoneyTok m' → u.length ≤ u'.length) ∧
    (∀ m' v', t = u ++ m' ++ v' → MoneyTok m' → m'.length ≤ m.length)

/-- No substring of `t` matches the money pattern. -/
def MoneyNoMatch (t : List Char) : Prop :=
  ∀ u m v, t = u ++ m ++ v → ¬ MoneyTok m

/-- Modelled from the spec, for C1's counterexample only: the claim's money
pattern with an *optional* leading dollar sign ("an optional leading dollar
sign, 1-3 digits, zero or more groups of a comma followed by exactly 3
digits, and an optional decimal point followed by exactly 2 digits"),
matched greedily at the start of `s`. -/
def specMoneyMatchAtOptDollar : List Char → Option (List Char)
  | [] => none
  | c :: r =>
    if c = '$' then
      let ds := takeDigits 3 r
      if ds.1.isEmpty then none
      else
        let gs := grabGroups ds.2
        let dec := grabDec gs.2
        some ('$' :: (ds.1 ++ gs.1 ++ dec.1))
    else
      let ds := takeDigits 3 (c :: r)
      if ds.1.isEmpty then none
      else
        let gs := grabGroups ds.2
        let dec := grabDec gs.2
        some (ds.1 ++ gs.1 ++ dec.1)

/-- Modelled from the spec, for C1's counterexample only: first (leftmost)
match of the optional-dollar pattern the claim describes. -/
def specMoneySearchOptDollar : List Char → Option (List Char)
  | [] => none
  | c :: cs =>
    match specMoneyMatchAtOptDollar (c :: cs) with
    | some m => some m
    | none => specMoneySearchOptDollar cs

/-! ### Small helper lemmas -/

theorem exceptBind_ok {β γ : Type} (a : β) (f : β → Except String γ) :
    (Except.ok a : Except String β) >>= f = f a := rfl

theorem exceptBind_error {β γ : Type} (e : String) (f : β → Except String γ) :
    (Except.error e : Except String β) >>= f = .error e := rfl

theorem dictInsert_fresh (d : List (String × String)) (k v : String)
    (h : d.any (fun e => e.1 = k) = false) : dictInsert d k v = d ++ [(k, v)] := by
  simp only [dictInsert, h]
  simp

theorem svgFieldStep_eq {α : Type} (crop : α → ℚ × ℚ × ℚ × ℚ → α)
    (ocr : α → Except String String) (image : α) (acc : List (String × String))
    (n : String) (x y w h : ℚ) :
    svgFieldStep crop ocr image acc (n, x, y, w, h) =
      match ocr (crop image (x, y, x + w, y + h)) with
      | .ok t => .ok (dictInsert acc n (clean_extracted_text n t))
      | .error e => .error e := by
  have hdef : svgFieldStep crop ocr image acc (n, x, y, w, h) =
      ocr (crop image (x, y, x + w, y + h)) >>= fun extracted_text =>
        pure (dictInsert acc n (clean_extracted_text n extracted_text)) := rfl
  rw [hdef]
  cases ocr (crop image (x, y, x + w, y + h)) <;> rfl

/-! ### Claim C9: the coordinate table lies within the template bounds -/

/-- C9: every rectangle `(x, y, width, height)` of the static field
coordinate table satisfies `0 ≤ x`, `0 ≤ y`, `x + width ≤ 1100` and
`y + height ≤ 701` (the template bounds `TEMPLATE_WIDTH × TEMPLATE_HEIGHT`). -/
theorem c9_table_rectangles_in_bounds :
    ∀ f ∈ svg_mapped_fields,
      0 ≤ f.2.1 ∧ 0 ≤ f.2.2.1 ∧ f.2.1 + f.2.2.2.1 ≤ (TEMPLATE_WIDTH : ℚ) ∧
        f.2.2.1 + f.2.2.2.2 ≤ (TEMPLATE_HEIGHT : ℚ) := by
  intro f hf
  simp only [svg_mapped_fields, List.mem_cons, List.not_mem_nil, or_false] at hf
  rcases hf with rfl | rfl | rfl | rfl | rfl | rfl | rfl | rfl | rfl | rfl | rfl | rfl | rfl |
    rfl | rfl | rfl | rfl | rfl | rfl | rfl | rfl | rfl | rfl | rfl | rfl | rfl <;>
    norm_num [TEMPLATE_WIDTH, TEMPLATE_HEIGHT]

/-- Witness for C9 at the table's first entry. -/
theorem c9_table_rectangles_in_bounds_witness :
    ("Employee SSN", (0.5 : ℚ), (0.5 : ℚ), (235 : ℚ), (49 : ℚ)) ∈ svg_mapped_fields ∧
      (0 ≤ (0.5 : ℚ) ∧ 0 ≤ (0.5 : ℚ) ∧ (0.5 : ℚ) + 235 ≤ (TEMPLATE_WIDTH : ℚ) ∧
        (0.5 : ℚ) + 49 ≤ (TEMPLATE_HEIGHT : ℚ)) := by
  have hm : ("Employee SSN", (0.5 : ℚ), (0.5 : ℚ), (235 : ℚ), (49 : ℚ)) ∈ svg_mapped_fields := by
    unfold svg_mapped_fields
    exact List.mem_cons_self _ _
  exact ⟨hm, c9_table_rectangles_in_bounds _ hm⟩

/-! ### Claim C2: region extraction over the table -/

/-- C2 counterexample: the static field coordinate table has 26 entries, not
25, so the region extractor yields 26 crops and the extraction result has 26
entries. -/
theorem c2_counterexample_26_entries :
    svg_mapped_fields.length = 26 ∧ svg_mapped_fields.length ≠ 25 := by
  constructor <;> decide

/-! ### Claim C7: OCR client response handling -/

/-- C7: when the provider's JSON has no parsed-results list (absent or
null), or the list is empty, `ocr_space_request` returns the empty string as
a successful result; otherwise it returns the recognized text of the first
entry of the list. -/
theorem c7_ocr_parsed_results_handling :
    ocr_space_request (.response none) = .ok "" ∧
    ocr_space_request (.response (some [])) = .ok "" ∧
    ∀ (t : String) (ts : List String),
      ocr_space_request (.response (some (t :: ts))) = .ok t :=
  ⟨rfl, rfl, fun _ _ => rfl⟩

/-! ### Claim C5: the noise-removal character set -/

/-- C5 counterexample: the noise-removal regex `[^\w\s\.\,\$\-]` keeps the
underscore (`\w` is alphanumeric *or underscore*), so `"x_y"` survives
cleaning unchanged even though `'_'` is in none of the claim's allowed
categories (alphanumeric, whitespace, period, comma, dollar sign, hyphen). -/
theorem c5_counterexample_underscore_kept :
    clean_extracted_text "12b" "x_y" = "x_y" ∧ '_' ∈ "x_y".data ∧
      ¬('_'.isAlphanum = true ∨ isPySpace '_' = true ∨ '_' = '.' ∨ '_' = ',' ∨
        '_' = '$' ∨ '_' = '-') := by
  refine ⟨by decide, by decide, by decide⟩

theorem mem_of_mem_pyStrip {c : Char} {s : List Char} (h : c ∈ pyStrip s) : c ∈ s := by
  unfold pyStrip at h
  rw [List.mem_reverse] at h
  have h2 := (List.dropWhile_sublist isPySpace).subset h
  rw [List.mem_reverse] at h2
  exact (List.dropWhile_sublist isPySpace).subset h2

/-- C5, amended: the final noise-removal step removes exactly the characters
outside `allowedCh` — word characters (alphanumeric or underscore),
whitespace, period, comma, dollar sign, hyphen — and consequently every
character of the cleaner's output is in that allowed set. -/
theorem c5_amended_output_alphabet :
    (∀ s : List Char, removeNoise s = s.filter allowedCh) ∧
    ∀ field text : String, (clean_extracted_text field text).data.all allowedCh = true := by
  refine ⟨fun _ => rfl, fun field text => ?_⟩
  rw [List.all_eq_true]
  intro c hc
  have hc' : c ∈ removeNoise (collapseWs
      (if isMoneyField field.data then
        match moneySearch (reSubCI field.data
            (pyReplace (pyReplace (pyStrip text.data) "For Official Use Only".data) "VOID".data)) with
        | some m => m
        | none => reSubCI field.data
            (pyReplace (pyReplace (pyStrip text.data) "For Official Use Only".data) "VOID".data)
      else reSubCI field.data
            (pyReplace (pyReplace (pyStrip text.data) "For Official Use Only".data) "VOID".data))) :=
    mem_of_mem_pyStrip hc
  rw [removeNoise, List.mem_filter] at hc'
  exact hc'.2

/-! ### Folding lemmas for the orchestrator -/

theorem foldlM_svgFieldStep_ok {α : Type} (crop : α → ℚ × ℚ × ℚ × ℚ → α)
    (ocr : α → Except String String) (image : α) :
    ∀ (fs : List (String × ℚ × ℚ × ℚ × ℚ)) (acc : List (String × String)),
      (∀ f ∈ fs, ∃ t, ocr (crop image (fieldBox f)) = .ok t) →
      (∀ f ∈ fs, acc.any (fun e => e.1 = f.1) = false) →
      (fs.map Prod.fst).Nodup →
      fs.foldlM (svgFieldStep crop ocr image) acc =
        .ok (acc ++ fs.map fun f =>
          (f.1, clean_extracted_text f.1 (exceptGetD (ocr (crop image (fieldBox f))) ""))) := by
  intro fs
  induction fs with
  | nil => intro acc _ _ _; simp; rfl
  | cons f fs ih =>
    intro acc hok hfresh hnd
    obtain ⟨n, x, y, w, h⟩ := f
    obtain ⟨t, ht⟩ := hok _ (List.mem_cons_self _ _)
    have hbox : fieldBox (n, x, y, w, h) = (x, y, x + w, y + h) := rfl
    rw [hbox] at ht
    rw [List.foldlM_cons, svgFieldStep_eq, ht, exceptBind_ok,
      dictInsert_fresh _ _ _ (hfresh _ (List.mem_cons_self _ _))]
    have hne : ∀ f' ∈ fs, n ≠ f'.1 := by
      intro f' hf' hEq
      have : n ∈ fs.map Prod.fst := hEq ▸ List.mem_map_of_mem Prod.fst hf'
      exact (List.nodup_cons.mp hnd).1 this
    rw [ih (acc ++ [(n, clean_extracted_text n t)])
      (fun f' hf' => hok f' (List.mem_cons_of_mem _ hf'))
      (fun f' hf' => by
        rw [List.any_append]
        have h1 := hfresh f' (List.mem_cons_of_mem _ hf')
        have h2 : [(n, clean_extracted_text n t)].any (fun e => e.1 = f'.1) = false := by
          simp [hne f' hf']
        rw [h1, h2]
        rfl)
      (List.nodup_cons.mp hnd).2]
    rw [List.map_cons]
    simp only [fieldBox, ht, exceptGetD, List.append_assoc, List.singleton_append]

theorem foldlM_svgFieldStep_error {α : Type} (crop : α → ℚ × ℚ × ℚ × ℚ → α)
    (ocr : α → Except String String) (image : α) :
    ∀ (fs : List (String × ℚ × ℚ × ℚ × ℚ)) (acc : List (String × String)),
      (∃ f ∈ fs, ∃ e, ocr (crop image (fieldBox f)) = .error e) →
      ∃ e', fs.foldlM (svgFieldStep crop ocr image) acc = .error e' := by
  intro fs
  induction fs with
  | nil =>
    rintro acc ⟨f, hf, _⟩
    exact absurd hf (List.not_mem_nil f)
  | cons f fs ih =>
    rintro acc ⟨f₀, hf₀, e₀, he₀⟩
    obtain ⟨n, x, y, w, h⟩ := f
    rw [List.foldlM_cons, svgFieldStep_eq]
    cases hocr : ocr (crop image (x, y, x + w, y + h)) with
    | error e => exact ⟨e, rfl⟩
    | ok t =>
      rw [exceptBind_ok]
      rcases List.mem_cons.mp hf₀ with rfl | hmem
      · rw [show fieldBox (n, x, y, w, h) = (x, y, x + w, y + h) from rfl, hocr] at he₀
        exact absurd he₀ (by simp)
      · exact ih _ ⟨f₀, hmem, e₀, he₀⟩

theorem foldl_postProcessStep :
    ∀ (data acc : List (String × String)),
      (∀ fv ∈ data, acc.any (fun e => e.1 = fv.1) = false) →
      (data.map Prod.fst).Nodup →
      data.foldl postProcessStep acc =
        acc ++ data.map fun fv => (fv.1, clean_extracted_text fv.1 fv.2) := by
  intro data
  induction data with
  | nil => intro acc _ _; simp
  | cons fv data ih =>
    intro acc hfresh hnd
    have hne : ∀ fv' ∈ data, fv.1 ≠ fv'.1 := by
      intro fv' hfv' hEq
      have : fv.1 ∈ data.map Prod.fst := hEq ▸ List.mem_map_of_mem Prod.fst hfv'
      exact (List.nodup_cons.mp (List.map_cons Prod.fst fv data ▸ hnd)).1 this
    rw [List.foldl_cons,
      show postProcessStep acc fv = dictInsert acc fv.1 (clean_extracted_text fv.1 fv.2) from rfl,
      dictInsert_fresh _ _ _ (hfresh _ (List.mem_cons_self _ _)),
      ih _ (fun fv' hfv' => by
        rw [List.any_append]
        have h1 := hfresh fv' (List.mem_cons_of_mem _ hfv')
        have h2 : [(fv.1, clean_extracted_text fv.1 fv.2)].any (fun e => e.1 = fv'.1) = false := by
          simp [hne fv' hfv']
        rw [h1, h2]
        rfl)
      (List.nodup_cons.mp (List.map_cons Prod.fst fv data ▸ hnd)).2]
    rw [List.map_cons, List.append_assoc, List.singleton_append]

/-! ### Claim C2 (amended): 26 crops, one per table row, in table order -/

/-- C2, amended: running the region extractor (with a successful OCR call on
every crop) yields exactly 26 crops — one per entry of the field coordinate
table, produced in table order, each crop being the rectangle slice
`(x, y)` to `(x + width, y + height)` of its table entry (`fieldBox`) — and
the resulting mapping has exactly one entry per table row, in table order. -/
theorem c2_amended_region_extraction {α : Type} (crop : α → ℚ × ℚ × ℚ × ℚ → α)
    (ocrText : α → String) (image : α) :
    extract_text_from_svg_fields crop (fun a => .ok (ocrText a)) image =
      .ok (svg_mapped_fields.map fun f =>
        (f.1, clean_extracted_text f.1 (ocrText (crop image (fieldBox f))))) ∧
    svg_mapped_fields.length = 26 ∧
    (svg_mapped_fields.map Prod.fst).Nodup := by
  refine ⟨?_, by decide, by decide⟩
  rw [extract_text_from_svg_fields,
    foldlM_svgFieldStep_ok crop _ image svg_mapped_fields []
      (fun f _ => ⟨ocrText (crop image (fieldBox f)), rfl⟩)
      (fun f _ => rfl) (by decide)]
  rw [List.nil_append]
  simp only [exceptGetD]

/-! ### Claim C4: the cleaner is applied twice per field, not once -/

/-- C4 counterexample: with OCR returning `"a # b"` for every crop, the final
response maps `"12b"` to `"a b"` (the cleaner applied twice), while a single
application of the cleaner gives `"a  b"` — so the pipeline does not apply
`clean_extracted_text` exactly once per field. -/
theorem c4_counterexample_double_cleaning :
    (match extract_w2_data (α := Unit) (fun a => a) (fun a _ _ => a) (fun a _ => a)
        (fun _ => .ok "a # b") (.ok ()) with
      | .ok d => d.lookup "12b"
      | .error _ => none) = some "a b" ∧
    clean_extracted_text "12b" "a # b" = "a  b" ∧
    ("a b" : String) ≠ "a  b" := by
  refine ⟨by decide, by decide, by decide⟩

/-- C4, amended: for every field, the value placed in the final response
mapping equals `clean_extracted_text` applied **twice** to that field's raw
OCR output (once inside `extract_text_from_svg_fields`, once again in
`post_process_extracted_data`), per the sequence normalizer → region
extractor → OCR client → text cleaner → post-processing. -/
theorem c4_amended_cleaner_applied_twice {α : Type} (trim_fn : α → α)
    (resize_fn : α → Nat → Nat → α) (crop : α → ℚ × ℚ × ℚ × ℚ → α)
    (ocrText : α → String) (image : α) :
    extract_w2_data trim_fn resize_fn crop (fun a => .ok (ocrText a)) (.ok image) =
      .ok (svg_mapped_fields.map fun f =>
        (f.1, clean_extracted_text f.1 (clean_extracted_text f.1
          (ocrText (crop (resize_fn (trim_fn image) TEMPLATE_WIDTH TEMPLATE_HEIGHT)
            (fieldBox f)))))) := by
  have hex : extract_text_from_svg_fields crop (fun a => .ok (ocrText a))
      (resize_fn (trim_fn image) TEMPLATE_WIDTH TEMPLATE_HEIGHT) =
      .ok (svg_mapped_fields.map fun f =>
        (f.1, clean_extracted_text f.1
          (ocrText (crop (resize_fn (trim_fn image) TEMPLATE_WIDTH TEMPLATE_HEIGHT)
            (fieldBox f))))) := by
    rw [extract_text_from_svg_fields,
      foldlM_svgFieldStep_ok crop (fun a => Except.ok (ocrText a))
        (resize_fn (trim_fn image) TEMPLATE_WIDTH TEMPLATE_HEIGHT) svg_mapped_fields []
        (fun f _ => ⟨ocrText (crop (resize_fn (trim_fn image)
          TEMPLATE_WIDTH TEMPLATE_HEIGHT) (fieldBox f)), rfl⟩)
        (fun f _ => rfl) (by decide)]
    rw [List.nil_append]
    simp only [exceptGetD]
  have h1 : extract_w2_data trim_fn resize_fn crop (fun a => .ok (ocrText a)) (.ok image) =
      match (extract_text_from_svg_fields crop (fun a => .ok (ocrText a))
          (resize_fn (trim_fn image) TEMPLATE_WIDTH TEMPLATE_HEIGHT) >>= fun ed =>
            pure (post_process_extracted_data ed) : Except String (List (String × String))) with
      | .ok d => .ok d
      | .error e => .error ("Error processing the image: " ++ e) := rfl
  rw [h1, hex, exceptBind_ok]
  have hkeys : ((svg_mapped_fields.map fun f =>
      (f.1, clean_extracted_text f.1
        (ocrText (crop (resize_fn (trim_fn image) TEMPLATE_WIDTH TEMPLATE_HEIGHT)
          (fieldBox f))))).map Prod.fst).Nodup := by
    rw [List.map_map]
    exact (by decide : (svg_mapped_fields.map (fun f => f.1)).Nodup)
  rw [post_process_extracted_data,
    foldl_postProcessStep _ [] (fun fv _ => rfl) hkeys, List.nil_append, List.map_map]
  rfl

/-! ### Claim C8: all-or-nothing request processing -/

/-- C8: if image decoding fails the request terminates with the single error
response; if any per-field OCR call fails the request terminates with a
single error response (no partial mapping); if nothing fails, the response
is the full mapping with one entry for every field of the coordinate table. -/
theorem c8_all_or_nothing {α : Type} (trim_fn : α → α) (resize_fn : α → Nat → Nat → α)
    (crop : α → ℚ × ℚ × ℚ × ℚ → α) (ocr : α → Except String String)
    (decoded : Except String α) :
    (∀ e, decoded = .error e →
      extract_w2_data trim_fn resize_fn crop ocr decoded =
        .error ("Error processing the image: " ++ e)) ∧
    (∀ image, decoded = .ok image →
      ((∃ f ∈ svg_mapped_fields, ∃ e,
          ocr (crop (resize_fn (trim_fn image) TEMPLATE_WIDTH TEMPLATE_HEIGHT)
            (fieldBox f)) = .error e) →
        ∃ msg, extract_w2_data trim_fn resize_fn crop ocr decoded =
          .error ("Error processing the image: " ++ msg)) ∧
      ((∀ f ∈ svg_mapped_fields, ∃ t,
          ocr (crop (resize_fn (trim_fn image) TEMPLATE_WIDTH TEMPLATE_HEIGHT)
            (fieldBox f)) = .ok t) →
        ∃ d, extract_w2_data trim_fn resize_fn crop ocr decoded = .ok d ∧
          d.map Prod.fst = svg_mapped_fields.map Prod.fst)) := by
  constructor
  · rintro e rfl
    rfl
  · rintro image rfl
    have h1 : extract_w2_data trim_fn resize_fn crop ocr (.ok image) =
        match (extract_text_from_svg_fields crop ocr
            (resize_fn (trim_fn image) TEMPLATE_WIDTH TEMPLATE_HEIGHT) >>= fun ed =>
              pure (post_process_extracted_data ed) : Except String (List (String × String))) with
        | .ok d => .ok d
        | .error e => .error ("Error processing the image: " ++ e) := rfl
    constructor
    · intro hbad
      obtain ⟨e', he'⟩ := foldlM_svgFieldStep_error crop ocr
        (resize_fn (trim_fn image) TEMPLATE_WIDTH TEMPLATE_HEIGHT) svg_mapped_fields [] hbad
      refine ⟨e', ?_⟩
      rw [h1, extract_text_from_svg_fields, he', exceptBind_error]
    · intro hgood
      rw [h1, extract_text_from_svg_fields,
        foldlM_svgFieldStep_ok _ _ _ svg_mapped_fields [] hgood (fun f _ => rfl) (by decide),
        exceptBind_ok, List.nil_append]
      refine ⟨_, rfl, ?_⟩
      have hkeys : ((svg_mapped_fields.map fun f =>
          (f.1, clean_extracted_text f.1
            (exceptGetD (ocr (crop (resize_fn (trim_fn image) TEMPLATE_WIDTH TEMPLATE_HEIGHT)
              (fieldBox f))) ""))).map Prod.fst).Nodup := by
        rw [List.map_map]
        exact (by decide : (svg_mapped_fields.map (fun f => f.1)).Nodup)
      rw [post_process_extracted_data,
        foldl_postProcessStep _ [] (fun fv _ => rfl) hkeys, List.nil_append,
        List.map_map, List.map_map]
      rfl

/-- Witness for C8: a failing decode, a failing OCR transport, and an
all-successful run, each at concrete inputs over the unit image type. -/
theorem c8_all_or_nothing_witness :
    extract_w2_data (α := Unit) (fun a => a) (fun a _ _ => a) (fun a _ => a)
        (fun _ => .ok "") (.error "bad image") =
      .error ("Error processing the image: " ++ "bad image") ∧
    (∃ msg, extract_w2_data (α := Unit) (fun a => a) (fun a _ _ => a) (fun a _ => a)
        (fun _ => .error "service down") (.ok ()) =
      .error ("Error processing the image: " ++ msg)) ∧
    (∃ d, extract_w2_data (α := Unit) (fun a => a) (fun a _ _ => a) (fun a _ => a)
        (fun _ => .ok "") (.ok ()) = .ok d ∧
      d.map Prod.fst = svg_mapped_fields.map Prod.fst) := by
  refine ⟨(c8_all_or_nothing _ _ _ _ _).1 "bad image" rfl, ?_, ?_⟩
  · exact ((c8_all_or_nothing _ _ _ _ _).2 () rfl).1
      ⟨("Employee SSN", 0.5, 0.5, 235, 49),
        by unfold svg_mapped_fields; exact List.mem_cons_self _ _,
        "service down", rfl⟩
  · exact ((c8_all_or_nothing _ _ _ _ _).2 () rfl).2 (fun f _ => ⟨"", rfl⟩)

/-! ### Claims C6 and C10: `trim_whitespace` on near-uniform images -/

theorem boostCh_self_eq_zero (d : Nat) (hd : d ≤ 100) : boostCh d d = 0 := by
  unfold boostCh
  omega

theorem nonzeroPoints_eq_nil (img : PixImg)
    (h : ∀ x, x < img.width → ∀ y, y < img.height → img.pix x y = (0, 0, 0)) :
    nonzeroPoints img = [] := by
  simp only [nonzeroPoints]
  rw [List.filterMap_eq_nil_iff]
  intro i hi
  rw [List.mem_range] at hi
  have hw : 0 < img.width := by
    rcases Nat.eq_zero_or_pos img.width with h0 | hpos
    · rw [h0] at hi; omega
    · exact hpos
  show (if img.pix (i % img.width) (i / img.width) = (0, 0, 0) then none
    else some (i % img.width, i / img.width)) = none
  rw [h _ (Nat.mod_lt _ hw) _ (Nat.div_lt_of_lt_mul hi)]
  simp

theorem trim_whitespace_eq_self_of_getbbox_none (img : PixImg)
    (hbb : (imageChopsAddBoost
      (imageChopsDifference img ⟨img.width, img.height, fun _ _ => img.pix 0 0⟩)
      (imageChopsDifference img ⟨img.width, img.height, fun _ _ => img.pix 0 0⟩)).getbbox =
        none) :
    trim_whitespace img = img := by
  simp only [trim_whitespace]
  rw [hbb]

theorem trim_whitespace_id_of_bounded_diff (img : PixImg)
    (h : ∀ x, x < img.width → ∀ y, y < img.height →
      (chDiff (img.pix x y) (img.pix 0 0)).1 ≤ 100 ∧
      (chDiff (img.pix x y) (img.pix 0 0)).2.1 ≤ 100 ∧
      (chDiff (img.pix x y) (img.pix 0 0)).2.2 ≤ 100) :
    trim_whitespace img = img := by
  apply trim_whitespace_eq_self_of_getbbox_none
  have hnp : nonzeroPoints (imageChopsAddBoost
      (imageChopsDifference img ⟨img.width, img.height, fun _ _ => img.pix 0 0⟩)
      (imageChopsDifference img ⟨img.width, img.height, fun _ _ => img.pix 0 0⟩)) = [] := by
    apply nonzeroPoints_eq_nil
    intro x hx y hy
    obtain ⟨h1, h2, h3⟩ := h x hx y hy
    show (boostCh (chDiff (img.pix x y) (img.pix 0 0)).1 (chDiff (img.pix x y) (img.pix 0 0)).1,
          boostCh (chDiff (img.pix x y) (img.pix 0 0)).2.1 (chDiff (img.pix x y) (img.pix 0 0)).2.1,
          boostCh (chDiff (img.pix x y) (img.pix 0 0)).2.2 (chDiff (img.pix x y) (img.pix 0 0)).2.2)
        = (0, 0, 0)
    rw [boostCh_self_eq_zero _ h1, boostCh_self_eq_zero _ h2, boostCh_self_eq_zero _ h3]
  simp only [PixImg.getbbox, hnp]

/-- C6: for every image of uniform color (all pixels equal to the top-left
pixel), `trim_whitespace` returns the image unchanged: the boosted
difference image is all zero, so its bounding box is empty. -/
theorem c6_trim_uniform_image_unchanged (img : PixImg)
    (h : ∀ x, x < img.width → ∀ y, y < img.height → img.pix x y = img.pix 0 0) :
    trim_whitespace img = img := by
  apply trim_whitespace_id_of_bounded_diff
  intro x hx y hy
  rw [h x hx y hy]
  simp [chDiff, absDiff]

/-- Witness for C6: a concrete 2×2 uniform image. -/
theorem c6_trim_uniform_image_unchanged_witness :
    trim_whitespace ⟨2, 2, fun _ _ => (7, 7, 7)⟩ = ⟨2, 2, fun _ _ => (7, 7, 7)⟩ :=
  c6_trim_uniform_image_unchanged ⟨2, 2, fun _ _ => (7, 7, 7)⟩ (fun _ _ _ _ => rfl)

/-- C10: a pixel is counted as background whenever its absolute difference
from the top-left corner pixel is at most 100 in every channel (the boosted
difference clamps `d - 100` to zero for `d ≤ 100`); hence every image whose
pixels are all within 100 per channel of the corner color is returned
unchanged by `trim_whitespace`. -/
theorem c10_trim_background_tolerance (img : PixImg)
    (h : ∀ x, x < img.width → ∀ y, y < img.height →
      absDiff (img.pix x y).1 (img.pix 0 0).1 ≤ 100 ∧
      absDiff (img.pix x y).2.1 (img.pix 0 0).2.1 ≤ 100 ∧
      absDiff (img.pix x y).2.2 (img.pix 0 0).2.2 ≤ 100) :
    trim_whitespace img = img :=
  trim_whitespace_id_of_bounded_diff img h

/-- Witness for C10: a concrete 1×2 image whose second pixel differs from the
corner pixel by exactly (50, 50, 100) per channel. -/
theorem c10_trim_background_tolerance_witness :
    trim_whitespace ⟨1, 2, fun _ y => if y = 0 then (200, 200, 200) else (150, 250, 100)⟩ =
      ⟨1, 2, fun _ y => if y = 0 then (200, 200, 200) else (150, 250, 100)⟩ :=
  c10_trim_background_tolerance _ (by decide)

/-! ### Claim C3: idempotence of the text cleaner -/

/-- C3 counterexample: cleaning is **not** idempotent.  For field `"12b"`
and raw text `"a # b"`, one cleaning pass gives `"a  b"` (the noise removal
deletes `'#'` *after* whitespace collapsing, leaving a double space), and a
second pass collapses that double space to `"a b"`. -/
theorem c3_counterexample_not_idempotent :
    clean_extracted_text "12b" (clean_extracted_text "12b" "a # b") ≠
      clean_extracted_text "12b" "a # b" := by decide


theorem dropWhile_isPySpace_eq_self :
    ∀ s : List Char, (∀ c, s.head? = some c → isPySpace c = false) →
      s.dropWhile isPySpace = s
  | [], _ => rfl
  | c :: cs, h => by
    rw [List.dropWhile_cons, h c rfl]
    simp

theorem pyStrip_eq_self (s : List Char) (h : noEdgeWs s = true) : pyStrip s = s := by
  unfold noEdgeWs at h
  rw [Bool.and_eq_true] at h
  obtain ⟨h1, h2⟩ := h
  unfold pyStrip
  rw [dropWhile_isPySpace_eq_self s (fun c hc => by rw [hc] at h1; simpa using h1),
    dropWhile_isPySpace_eq_self s.reverse (fun c hc => by
      rw [List.head?_reverse] at hc
      rw [hc] at h2
      simpa using h2),
    List.reverse_reverse]

theorem removeAllOccF_eq_self (p : Char) (ps : List Char) :
    ∀ (n : Nat) (s : List Char), s.length ≤ n → hasSubstr (p :: ps) s = false →
      removeAllOccF p ps n s = s := by
  intro n
  induction n with
  | zero =>
    intro s hlen _
    cases s with
    | nil => rfl
    | cons c cs => simp at hlen
  | succ n ih =>
    intro s hlen hno
    cases s with
    | nil => rfl
    | cons c cs =>
      simp only [hasSubstr] at hno
      rw [Bool.or_eq_false_iff] at hno
      simp only [removeAllOccF, hno.1]
      rw [ih cs (by simpa using Nat.le_of_succ_le_succ hlen) hno.2]
      simp

theorem pyReplace_eq_self (s pat : List Char)
    (h : pat = [] ∨ hasSubstr pat s = false) : pyReplace s pat = s := by
  match pat with
  | [] => rfl
  | p :: ps =>
    rcases h with h | h
    · exact absurd h (by simp)
    · exact removeAllOccF_eq_self p ps s.length s (Nat.le_refl _) h

theorem ciRemoveF_eq_self (p : Char) (ps : List Char) :
    ∀ (n : Nat) (s : List Char), s.length ≤ n →
      hasSubstr ((p :: ps).map lowerCh) (s.map lowerCh) = false →
      ciRemoveF p ps n s = s := by
  intro n
  induction n with
  | zero =>
    intro s hlen _
    cases s with
    | nil => rfl
    | cons c cs => simp at hlen
  | succ n ih =>
    intro s hlen hno
    cases s with
    | nil => rfl
    | cons c cs =>
      rw [List.map_cons] at hno
      simp only [hasSubstr] at hno
      rw [Bool.or_eq_false_iff] at hno
      have hpre : ((p :: ps).map lowerCh).isPrefixOf ((c :: cs).map lowerCh) = false := by
        rw [List.map_cons]
        exact hno.1
      simp only [ciRemoveF, hpre]
      rw [ih cs (by simpa using Nat.le_of_succ_le_succ hlen) hno.2]
      simp

theorem reSubCI_eq_self (field s : List Char)
    (h : field = [] ∨ hasSubstr (field.map lowerCh) (s.map lowerCh) = false) :
    reSubCI field s = s := by
  match field with
  | [] => rfl
  | p :: ps =>
    rcases h with h | h
    · exact absurd h (by simp)
    · exact ciRemoveF_eq_self p ps s.length s (Nat.le_refl _) h

theorem collapseGo_eq_self :
    ∀ s : List Char, wsNormalized s = true →
      collapseGo false s = s ∧
        ((match s with | [] => true | d :: _ => !isPySpace d) = true →
          collapseGo true s = s) := by
  intro s
  induction s with
  | nil => exact fun _ => ⟨rfl, fun _ => rfl⟩
  | cons c cs ih =>
    intro h
    unfold wsNormalized at h
    rw [Bool.and_eq_true] at h
    obtain ⟨hc, hcs⟩ := h
    obtain ⟨ih1, ih2⟩ := ih hcs
    by_cases hsp : isPySpace c = true
    · rw [if_pos hsp] at hc
      rw [Bool.and_eq_true] at hc
      have hc1 : c = ' ' := by simpa using hc.1
      constructor
      · show collapseGo false (c :: cs) = c :: cs
        unfold collapseGo
        rw [hsp]
        simp only [if_true]
        rw [ih2 hc.2, hc1]
        simp
      · intro hhead
        simp only at hhead
        rw [hsp] at hhead
        simp at hhead
    · have hsp' : isPySpace c = false := by simpa using hsp
      constructor
      · show collapseGo false (c :: cs) = c :: cs
        unfold collapseGo
        rw [hsp']
        simp only [Bool.false_eq_true, if_false]
        rw [ih1]
      · intro _
        show collapseGo true (c :: cs) = c :: cs
        unfold collapseGo
        rw [hsp']
        simp only [Bool.false_eq_true, if_false]
        rw [ih1]

theorem collapseWs_eq_self (s : List Char) (h : wsNormalized s = true) :
    collapseWs s = s :=
  (collapseGo_eq_self s h).1

/-- C3, amended: the cleaner is not idempotent in general; it is the
identity — hence idempotent — on every input that is already in cleaned
shape: no leading/trailing whitespace, no boilerplate phrase, no
case-insensitive occurrence of the (non-empty) field name, collapsed
whitespace, only allowed characters, and, for monetary fields, a first
money-regex match (if any) equal to the whole text. -/
theorem c3_amended_cleaner_fixed_point (field text : String)
    (h1 : noEdgeWs text.data = true)
    (h2 : hasSubstr "For Official Use Only".data text.data = false)
    (h3 : hasSubstr "VOID".data text.data = false)
    (h4 : field = "" ∨ hasSubstr (field.data.map lowerCh) (text.data.map lowerCh) = false)
    (h5 : isMoneyField field.data = true → (moneySearch text.data).getD text.data = text.data)
    (h6 : wsNormalized text.data = true)
    (h7 : text.data.all allowedCh = true) :
    clean_extracted_text field text = text := by
  have e1 : pyStrip text.data = text.data := pyStrip_eq_self _ h1
  have e2 : pyReplace text.data "For Official Use Only".data = text.data :=
    pyReplace_eq_self _ _ (Or.inr h2)
  have e3 : pyReplace text.data "VOID".data = text.data :=
    pyReplace_eq_self _ _ (Or.inr h3)
  have e4 : reSubCI field.data text.data = text.data := by
    apply reSubCI_eq_self
    rcases h4 with h4 | h4
    · left
      rw [h4]
    · exact Or.inr h4
  have e5 : collapseWs text.data = text.data := collapseWs_eq_self _ h6
  have e6 : removeNoise text.data = text.data := by
    unfold removeNoise
    rw [List.filter_eq_self]
    intro a ha
    exact (List.all_eq_true.mp h7) a ha
  have hmoney : (if isMoneyField field.data then
      match moneySearch text.data with
      | some m => m
      | none => text.data
    else text.data) = text.data := by
    by_cases hm : isMoneyField field.data = true
    · rw [if_pos hm]
      have h5' := h5 hm
      cases hs : moneySearch text.data with
      | none => rfl
      | some m =>
        rw [hs] at h5'
        simpa using h5'
    · exact if_neg hm
  have hcore : cleanCore field.data text.data = text.data := by
    simp only [cleanCore]
    rw [e1, e2, e3, e4, hmoney, e5, e6, e1]
  show (⟨cleanCore field.data text.data⟩ : String) = text
  rw [hcore]

/-- Witness for C3's amended theorem at field `"12b"`, text `"abc"`. -/
theorem c3_amended_cleaner_fixed_point_witness :
    clean_extracted_text "12b" "abc" = "abc" :=
  c3_amended_cleaner_fixed_point "12b" "abc" (by decide) (by decide) (by decide)
    (Or.inr (by decide)) (by decide) (by decide) (by decide)

/-! ### Claim C1: the monetary extraction step

Declarative reading of the money pattern (with the **mandatory** dollar sign
the source regex `\$\d{1,3}(?:,\d{3})*(?:\.\d{2})?` requires), and the
leftmost-greedy "first match" semantics of `re.search`. -/


/-! Basic invariants of the greedy sub-matchers. -/

theorem takeDigits_append : ∀ (n : Nat) (s : List Char),
    (takeDigits n s).1 ++ (takeDigits n s).2 = s
  | 0, _ => rfl
  | _ + 1, [] => rfl
  | n + 1, c :: r => by
    simp only [takeDigits]
    by_cases h : isDigitCh c = true
    · simp only [h, if_true, List.cons_append]
      rw [takeDigits_append n r]
    · simp [h]

theorem takeDigits_digits : ∀ (n : Nat) (s : List Char),
    ∀ c ∈ (takeDigits n s).1, isDigitCh c = true
  | 0, _ => by simp [takeDigits]
  | _ + 1, [] => by simp [takeDigits]
  | n + 1, c :: r => by
    simp only [takeDigits]
    by_cases h : isDigitCh c = true
    · simp only [h, if_true]
      intro a ha
      rcases List.mem_cons.mp ha with rfl | ha
      · exact h
      · exact takeDigits_digits n r a ha
    · simp [h]

theorem takeDigits_len : ∀ (n : Nat) (s : List Char), (takeDigits n s).1.length ≤ n
  | 0, _ => by simp [takeDigits]
  | _ + 1, [] => by simp [takeDigits]
  | n + 1, c :: r => by
    simp only [takeDigits]
    by_cases h : isDigitCh c = true
    · simp only [h, if_true, List.length_cons]
      exact Nat.succ_le_succ (takeDigits_len n r)
    · simp [h]

theorem takeDigits_of_leading_digits :
    ∀ (ds : List Char) (n : Nat) (t : List Char), (∀ c ∈ ds, isDigitCh c = true) →
      ds.length ≤ n →
      takeDigits n (ds ++ t) =
        (ds ++ (takeDigits (n - ds.length) t).1, (takeDigits (n - ds.length) t).2)
  | [], n, t, _, _ => by simp
  | d :: ds, n, t, hdig, hlen => by
    cases n with
    | zero => simp at hlen
    | succ n =>
      have hd : isDigitCh d = true := hdig d (List.mem_cons_self _ _)
      simp only [List.cons_append, takeDigits, hd, if_true, List.append_eq]
      rw [takeDigits_of_leading_digits ds n t
        (fun c hc => hdig c (List.mem_cons_of_mem _ hc)) (Nat.le_of_succ_le_succ hlen)]
      simp [Nat.succ_sub_succ]

theorem grabGroups_append : ∀ s : List Char, (grabGroups s).1 ++ (grabGroups s).2 = s
  | [] => rfl
  | [c] => rfl
  | [c, a] => rfl
  | [c, a, b] => rfl
  | c :: a :: b :: d :: r => by
    simp only [grabGroups]
    by_cases h : (c = ',' && isDigitCh a && isDigitCh b && isDigitCh d) = true
    · simp only [h, if_true, List.cons_append]
      rw [grabGroups_append r]
    · simp [h]

theorem grabGroups_isGroups : ∀ s : List Char, IsGroups (grabGroups s).1
  | [] => IsGroups.nil
  | [c] => IsGroups.nil
  | [c, a] => IsGroups.nil
  | [c, a, b] => IsGroups.nil
  | c :: a :: b :: d :: r => by
    simp only [grabGroups]
    by_cases h : (c = ',' && isDigitCh a && isDigitCh b && isDigitCh d) = true
    · simp only [h, if_true]
      simp only [Bool.and_eq_true, decide_eq_true_eq] at h
      obtain ⟨⟨⟨hc, ha⟩, hb⟩, hd⟩ := h
      subst hc
      exact IsGroups.cons a b d _ ha hb hd (grabGroups_isGroups r)
    · simp only [h]
      simp
      exact IsGroups.nil

theorem grabGroups_cons_group (a b c : Char) (ha : isDigitCh a = true)
    (hb : isDigitCh b = true) (hc : isDigitCh c = true) (r : List Char) :
    grabGroups (',' :: a :: b :: c :: r) =
      (',' :: a :: b :: c :: (grabGroups r).1, (grabGroups r).2) := by
  simp only [grabGroups]
  rw [if_pos (by simp [ha, hb, hc])]

theorem grabGroups_of_leading_groups (J : List Char) (hJ : IsGroups J) :
    ∀ t : List Char,
      grabGroups (J ++ t) = (J ++ (grabGroups t).1, (grabGroups t).2) := by
  induction hJ with
  | nil => intro t; simp
  | cons a b c J ha hb hc hJ ih =>
    intro t
    rw [List.cons_append, List.cons_append, List.cons_append, List.cons_append,
      grabGroups_cons_group a b c ha hb hc (J ++ t), ih t]
    simp

theorem grabDec_append : ∀ s : List Char, (grabDec s).1 ++ (grabDec s).2 = s
  | [] => rfl
  | [c] => rfl
  | [c, a] => rfl
  | c :: a :: b :: r => by
    simp only [grabDec]
    by_cases h : (c = '.' && isDigitCh a && isDigitCh b) = true
    · simp [h]
    · simp [h]

theorem grabDec_shape : ∀ s : List Char,
    (grabDec s).1 = [] ∨ ∃ a b, (grabDec s).1 = ['.', a, b] ∧
      isDigitCh a = true ∧ isDigitCh b = true
  | [] => Or.inl rfl
  | [c] => Or.inl rfl
  | [c, a] => Or.inl rfl
  | c :: a :: b :: r => by
    simp only [grabDec]
    by_cases h : (c = '.' && isDigitCh a && isDigitCh b) = true
    · simp only [h, if_true]
      simp only [Bool.and_eq_true, decide_eq_true_eq] at h
      obtain ⟨⟨hc, ha⟩, hb⟩ := h
      subst hc
      exact Or.inr ⟨a, b, rfl, ha, hb⟩
    · simp [h]

theorem grabDec_of_leading_dec (a b : Char) (ha : isDigitCh a = true)
    (hb : isDigitCh b = true) (t : List Char) :
    grabDec ('.' :: a :: b :: t) = (['.', a, b], t) := by
  simp [grabDec, ha, hb]

theorem isGroups_cons_head {p : Char} {P : List Char} (h : IsGroups (p :: P)) :
    p = ',' := by
  cases h
  rfl

theorem moneyMatchAt_dollar (r : List Char) :
    moneyMatchAt ('$' :: r) =
      (if (takeDigits 3 r).1.isEmpty then none
       else some ('$' :: ((takeDigits 3 r).1 ++ (grabGroups (takeDigits 3 r).2).1 ++
         (grabDec (grabGroups (takeDigits 3 r).2).2).1))) := by
  simp only [moneyMatchAt]
  simp

theorem moneyMatchAt_not_dollar (c : Char) (r : List Char) (h : ¬c = '$') :
    moneyMatchAt (c :: r) = none := by
  simp only [moneyMatchAt]
  rw [if_neg h]

theorem moneyMatchAt_sound (s m : List Char) (h : moneyMatchAt s = some m) :
    MoneyTok m ∧ ∃ r, s = m ++ r := by
  cases s with
  | nil => exact absurd h (by simp [moneyMatchAt])
  | cons c r =>
    by_cases hc : c = '$'
    · subst hc
      rw [moneyMatchAt_dollar] at h
      by_cases hemp : (takeDigits 3 r).1.isEmpty = true
      · rw [if_pos hemp] at h
        exact absurd h (by simp)
      · rw [if_neg hemp] at h
        have hm := Option.some.inj h
        have e1 := takeDigits_append 3 r
        have e2 := grabGroups_append (takeDigits 3 r).2
        have e3 := grabDec_append (grabGroups (takeDigits 3 r).2).2
        constructor
        · rw [← hm]
          exact ⟨(takeDigits 3 r).1, (grabGroups (takeDigits 3 r).2).1,
            (grabDec (grabGroups (takeDigits 3 r).2).2).1, rfl,
            by intro hnil; rw [hnil] at hemp; exact hemp rfl,
            takeDigits_len 3 r, takeDigits_digits 3 r,
            grabGroups_isGroups (takeDigits 3 r).2,
            grabDec_shape (grabGroups (takeDigits 3 r).2).2⟩
        · refine ⟨(grabDec (grabGroups (takeDigits 3 r).2).2).2, ?_⟩
          rw [← hm]
          simp only [List.cons_append, List.append_assoc]
          rw [e3, e2, e1]
    · rw [moneyMatchAt_not_dollar c r hc] at h
      exact absurd h (by simp)

theorem moneyMatchAt_complete (s m' : List Char) (hTok : MoneyTok m')
    (hpre : ∃ r, s = m' ++ r) : ∃ m, moneyMatchAt s = some m := by
  obtain ⟨ds, J, dec, rfl, hne, hlen, hdig, hJ, hdec⟩ := hTok
  obtain ⟨r, rfl⟩ := hpre
  obtain ⟨d, ds', rfl⟩ := List.exists_cons_of_ne_nil hne
  have hd : isDigitCh d = true := hdig d (List.mem_cons_self _ _)
  rw [show ('$' :: ((d :: ds') ++ J ++ dec)) ++ r =
    '$' :: (d :: (ds' ++ J ++ dec ++ r)) by simp]
  rw [moneyMatchAt_dollar]
  have hne2 : (takeDigits 3 (d :: (ds' ++ J ++ dec ++ r))).1.isEmpty = false := by
    simp only [takeDigits, hd, if_true]
    rfl
  rw [hne2]
  simp

theorem moneyMatchAt_maximal (s m : List Char) (hmm : moneyMatchAt s = some m)
    (m' : List Char) (hTok : MoneyTok m') (hpre : ∃ r, s = m' ++ r) :
    m'.length ≤ m.length := by
  obtain ⟨ds', J', dec', rfl, hne', hlen', hdig', hJ', hdec'⟩ := hTok
  obtain ⟨rest, hs⟩ := hpre
  subst hs
  rw [show ('$' :: (ds' ++ J' ++ dec')) ++ rest =
    '$' :: (ds' ++ (J' ++ (dec' ++ rest))) by simp] at hmm
  rw [moneyMatchAt_dollar] at hmm
  have htd := takeDigits_of_leading_digits ds' 3 (J' ++ (dec' ++ rest)) hdig' hlen'
  rw [htd] at hmm
  by_cases hemp : ((ds' ++ (takeDigits (3 - ds'.length) (J' ++ (dec' ++ rest))).1,
      (takeDigits (3 - ds'.length) (J' ++ (dec' ++ rest))).2) :
        List Char × List Char).1.isEmpty = true
  · rw [if_pos hemp] at hmm
    exact absurd hmm (by simp)
  rw [if_neg hemp] at hmm
  have hm := Option.some.inj hmm
  have hXY : (takeDigits (3 - ds'.length) (J' ++ (dec' ++ rest))).1 ++
      (takeDigits (3 - ds'.length) (J' ++ (dec' ++ rest))).2 = J' ++ (dec' ++ rest) :=
    takeDigits_append _ _
  cases hXc : (takeDigits (3 - ds'.length) (J' ++ (dec' ++ rest))).1 with
  | cons x X' =>
    have hxdig : isDigitCh x = true := by
      apply takeDigits_digits (3 - ds'.length) (J' ++ (dec' ++ rest)) x
      rw [hXc]
      exact List.mem_cons_self _ _
    rw [hXc] at hXY
    have hJnil : J' = [] := by
      cases hJ' with
      | nil => rfl
      | cons a b c J hA hB hC hJJ =>
        have hx : x = ',' := by
          have := congrArg List.head? hXY
          simpa using this
        rw [hx] at hxdig
        exact absurd hxdig (by decide)
    subst hJnil
    have hdnil : dec' = [] := by
      rcases hdec' with hnil | ⟨a, b, hab, ha, hb⟩
      · exact hnil
      · rw [hab] at hXY
        have hx : x = '.' := by
          have := congrArg List.head? hXY
          simpa using this
        rw [hx] at hxdig
        exact absurd hxdig (by decide)
    subst hdnil
    rw [← hm]
    simp only [List.length_cons, List.length_append, List.append_nil, hXc]
    omega
  | nil =>
    rw [hXc, List.nil_append] at hXY
    have hgg := grabGroups_of_leading_groups J' hJ' (dec' ++ rest)
    simp only [hXc, List.append_nil, hXY, hgg] at hm
    have hPG : IsGroups (grabGroups (dec' ++ rest)).1 := grabGroups_isGroups _
    have hPsplit : (grabGroups (dec' ++ rest)).1 ++ (grabGroups (dec' ++ rest)).2 =
        dec' ++ rest := grabGroups_append _
    cases hP1c : (grabGroups (dec' ++ rest)).1 with
    | cons p P1' =>
      have hp : p = ',' := isGroups_cons_head (hP1c ▸ hPG)
      have hdnil : dec' = [] := by
        rcases hdec' with hnil | ⟨a, b, hab, ha, hb⟩
        · exact hnil
        · rw [hP1c, hab, hp] at hPsplit
          have hcontra := congrArg List.head? hPsplit
          simp at hcontra
      subst hdnil
      rw [← hm]
      simp only [hP1c, List.length_cons, List.length_append, List.append_nil]
      omega
    | nil =>
      rw [hP1c, List.nil_append] at hPsplit
      rcases hdec' with hdnil | ⟨a, b, hab, ha, hb⟩
      · subst hdnil
        rw [← hm]
        simp only [List.length_cons, List.length_append, List.append_nil]
        omega
      · rw [hab] at hPsplit
        rw [hP1c] at hm
        rw [hab, hPsplit,
          show (['.', a, b] : List Char) ++ rest = '.' :: a :: b :: rest by simp,
          grabDec_of_leading_dec a b ha hb rest] at hm
        rw [← hm, hab]
        simp only [List.length_cons, List.length_append, List.append_nil]
        omega

theorem moneySearch_sound : ∀ (t m : List Char), moneySearch t = some m →
    FirstMoneyMatch t m := by
  intro t
  induction t with
  | nil => intro m h; exact absurd h (by simp [moneySearch])
  | cons c cs ih =>
    intro m h
    simp only [moneySearch] at h
    cases hA : moneyMatchAt (c :: cs) with
    | some m0 =>
      rw [hA] at h
      have hm : m0 = m := Option.some.inj h
      subst hm
      obtain ⟨htok, r, hr⟩ := moneyMatchAt_sound _ _ hA
      refine ⟨[], r, by simpa using hr, htok, fun _ _ _ _ _ => Nat.zero_le _, ?_⟩
      intro m' v' hsplit htok'
      exact moneyMatchAt_maximal _ _ hA m' htok' ⟨v', by simpa using hsplit⟩
    | none =>
      rw [hA] at h
      obtain ⟨u, v, hsplit, htok, hleft, hmax⟩ := ih m h
      refine ⟨c :: u, v, by rw [hsplit]; rfl, htok, ?_, ?_⟩
      · intro u' m' v' hsplit' htok'
        cases u' with
        | nil =>
          obtain ⟨m1, hm1⟩ := moneyMatchAt_complete (c :: cs) m' htok'
            ⟨v', by simpa using hsplit'⟩
          rw [hm1] at hA
          exact absurd hA (by simp)
        | cons c0 u0 =>
          have hcs : cs = u0 ++ m' ++ v' := by
            have := List.cons.inj hsplit'
            exact this.2
          simpa using Nat.succ_le_succ (hleft u0 m' v' hcs htok')
      · intro m' v' hsplit' htok'
        have hcs : cs = u ++ m' ++ v' := by
          have := List.cons.inj hsplit'
          exact this.2
        exact hmax m' v' hcs htok'

theorem moneySearch_none : ∀ t : List Char, moneySearch t = none → MoneyNoMatch t := by
  intro t
  induction t with
  | nil =>
    intro _ u m v hsplit htok
    obtain ⟨ds, J, dec, hm, _, _, _, _, _⟩ := htok
    have : ([] : List Char) = u ++ m ++ v := hsplit
    rw [hm] at this
    exact absurd this.symm (by simp)
  | cons c cs ih =>
    intro h
    simp only [moneySearch] at h
    cases hA : moneyMatchAt (c :: cs) with
    | some m0 => rw [hA] at h; exact absurd h (by simp)
    | none =>
      rw [hA] at h
      intro u m v hsplit htok
      cases u with
      | nil =>
        obtain ⟨m1, hm1⟩ := moneyMatchAt_complete (c :: cs) m htok
          ⟨v, by simpa using hsplit⟩
        rw [hm1] at hA
        exact absurd hA (by simp)
      | cons c0 u0 =>
        have hcs : cs = u0 ++ m ++ v := (List.cons.inj hsplit).2
        exact ih h u0 m v hcs htok

theorem firstMoneyMatch_unique (t m m0 : List Char) (h : FirstMoneyMatch t m)
    (h0 : FirstMoneyMatch t m0) : m = m0 := by
  obtain ⟨u, v, hsplit, htok, hleft, hmax⟩ := h
  obtain ⟨u0, v0, hsplit0, htok0, hleft0, hmax0⟩ := h0
  have hlen : u.length = u0.length :=
    Nat.le_antisymm (hleft u0 m0 v0 hsplit0 htok0) (hleft0 u m v hsplit htok)
  have hu : u = u0 := by
    have h1 : t.take u.length = u := by rw [hsplit, List.append_assoc, List.take_left]
    have h2 : t.take u0.length = u0 := by rw [hsplit0, List.append_assoc, List.take_left]
    rw [← h1, ← h2, hlen]
  subst hu
  have hmm : m.length = m0.length := by
    apply Nat.le_antisymm
    · exact hmax0 m v (by rw [← hsplit]) htok
    · exact hmax m0 v0 (by rw [← hsplit0]) htok0
  have htail : m ++ v = m0 ++ v0 := by
    have hju : u ++ (m ++ v) = u ++ (m0 ++ v0) := by
      rw [← List.append_assoc, ← List.append_assoc, ← hsplit, ← hsplit0]
    exact List.append_cancel_left hju
  have h1 : (m ++ v).take m.length = m := List.take_left m v
  rw [htail, hmm, List.take_left] at h1
  exact h1.symm

theorem moneySearch_of_firstMoneyMatch (t m : List Char) (h : FirstMoneyMatch t m) :
    moneySearch t = some m := by
  cases hs : moneySearch t with
  | none =>
    obtain ⟨u, v, hsplit, htok, _, _⟩ := h
    exact absurd htok (moneySearch_none t hs u m v hsplit)
  | some m0 =>
    rw [firstMoneyMatch_unique t m m0 h (moneySearch_sound t m0 hs)]

/-- C1, amended: for every field whose name contains a monetary label
fragment, the cleaner searches the phrase/label-stripped text for the first
substring matching the money pattern with a **mandatory** leading dollar
sign (1–3 digits, optional comma groups, optional two decimals); if such a
substring exists the entire text is replaced by that first (leftmost,
greedy-longest) match before the whitespace/noise/strip steps, and if no
match exists the text passes through unchanged. -/
theorem c1_money_step (field text : String) (hm : isMoneyField field.data = true) :
    (∀ m, FirstMoneyMatch (reSubCI field.data (pyReplace (pyReplace (pyStrip text.data)
        "For Official Use Only".data) "VOID".data)) m →
      clean_extracted_text field text = ⟨pyStrip (removeNoise (collapseWs m))⟩) ∧
    (MoneyNoMatch (reSubCI field.data (pyReplace (pyReplace (pyStrip text.data)
        "For Official Use Only".data) "VOID".data)) →
      clean_extracted_text field text = ⟨pyStrip (removeNoise (collapseWs
        (reSubCI field.data (pyReplace (pyReplace (pyStrip text.data)
          "For Official Use Only".data) "VOID".data))))⟩) := by
  have hcc : cleanCore field.data text.data =
      pyStrip (removeNoise (collapseWs
        (match moneySearch (reSubCI field.data (pyReplace (pyReplace (pyStrip text.data)
            "For Official Use Only".data) "VOID".data)) with
         | some m => m
         | none => reSubCI field.data (pyReplace (pyReplace (pyStrip text.data)
            "For Official Use Only".data) "VOID".data)))) := by
    simp only [cleanCore]
    rw [if_pos hm]
  constructor
  · intro m hF
    have hs := moneySearch_of_firstMoneyMatch _ m hF
    show (⟨cleanCore field.data text.data⟩ : String) = _
    rw [hcc, hs]
  · intro hNo
    have hs : moneySearch (reSubCI field.data (pyReplace (pyReplace (pyStrip text.data)
        "For Official Use Only".data) "VOID".data)) = none := by
      cases hsearch : moneySearch (reSubCI field.data (pyReplace (pyReplace
          (pyStrip text.data) "For Official Use Only".data) "VOID".data)) with
      | none => rfl
      | some m0 =>
        obtain ⟨u, v, hsplit, htok, _, _⟩ := moneySearch_sound _ m0 hsearch
        exact absurd htok (hNo u m0 v hsplit)
    show (⟨cleanCore field.data text.data⟩ : String) = _
    rw [hcc, hs]


/-- C1 counterexample: for the monetary field `"2 Federal income tax
withheld"` and text `"total 500 fine"`, a substring (`"500"`) matches the
claim's optional-dollar pattern, so per the claim the text would be replaced
by `"500"`; but the source regex requires a literal `$`, finds no match, and
leaves the text as-is. -/
theorem c1_counterexample_dollar_required :
    specMoneySearchOptDollar "total 500 fine".data = some "500".data ∧
    clean_extracted_text "2 Federal income tax withheld" "total 500 fine" =
      "total 500 fine" ∧
    ("total 500 fine" : String) ≠ "500" := by
  refine ⟨by decide, by decide, by decide⟩

/-- Witness for C1's amended theorem: the spec's own example
`"Wages $35,000.00 extra"` cleans to exactly `"$35,000.00"`. -/
theorem c1_money_step_witness :
    clean_extracted_text "1 Wages, tips, other compensation" "Wages $35,000.00 extra" =
      "$35,000.00" := by
  have hm : isMoneyField ("1 Wages, tips, other compensation" : String).data = true := by
    decide
  have hs : moneySearch (reSubCI ("1 Wages, tips, other compensation" : String).data
      (pyReplace (pyReplace (pyStrip ("Wages $35,000.00 extra" : String).data)
        "For Official Use Only".data) "VOID".data)) = some "$35,000.00".data := by decide
  have h := (c1_money_step "1 Wages, tips, other compensation" "Wages $35,000.00 extra" hm).1
    "$35,000.00".data (moneySearch_sound _ _ hs)
  rw [h]
  decide
